import Mathlib

/-!
Verification development for the event-matching core of PyHydroQC's
`arima-explore.py` (the Segmenter / Aligner / Matcher / Classifier /
Metric Roll-up pipeline).

The Python series are embedded as Lean lists: a boolean flag series is a
`List Bool`, an event series a `List Nat`.  `determine_events` consumes the
`normal_lbl` series (`true` = normal point, `false` = anomalous point,
exactly as in the source); `determine_detections` consumes the detection
flag series (`true` = point detected as anomalous).  Python's mutable
`events[i-1] = event_count` always hits the last element of the list built
so far (the loop has appended exactly `i` elements when iteration `i`
runs), so it is embedded as `dropLast` followed by pushing the new value.
-/

/-- Loop of `determine_events` (arima-explore.py lines 95-110).  State:
`prev` is `normal_lbl[i-1]`, `event_count` the running counter, `events`
the list built so far (`events[i-1]` is its last element). -/
def eventsAux : Bool → List Bool → Nat → List Nat → List Nat
  | _, [], _, events => events
  | prev, x :: rest, event_count, events =>
    if !x then
      if prev then
        eventsAux x rest (event_count + 1)
          ((events.dropLast ++ [event_count + 1]) ++ [event_count + 1])
      else
        eventsAux x rest event_count (events ++ [event_count])
    else
      if !prev then
        eventsAux x rest event_count (events ++ [event_count])
      else
        eventsAux x rest event_count (events ++ [0])

/-- `determine_events(normal_lbl)`: `events = [0]`, then the loop from
index 1.  On an empty series Python also returns `[0]`. -/
def determine_events : List Bool → List Nat
  | [] => [0]
  | x :: rest => eventsAux x rest 0 [0]

/-- Loop of `determine_detections` (lines 113-132); same shape as
`eventsAux` with the flag polarity of `anomDetn` (`true` = detection). -/
def detAux : Bool → List Bool → Nat → List Nat → List Nat
  | _, [], _, det_events => det_events
  | prev, x :: rest, det_count, det_events =>
    if x then
      if !prev then
        detAux x rest (det_count + 1)
          ((det_events.dropLast ++ [det_count + 1]) ++ [det_count + 1])
      else
        detAux x rest det_count (det_events ++ [det_count])
    else
      if prev then
        detAux x rest det_count (det_events ++ [det_count])
      else
        detAux x rest det_count (det_events ++ [0])

/-- `determine_detections(anomDetn)` (lines 113-132). -/
def determine_detections : List Bool → List Nat
  | [] => [0]
  | x :: rest => detAux x rest 0 [0]

/-- Loop of `compare_lbl_detns` (lines 139-148).  The two accumulators are
kept reversed (head = Python's `list[-1]`, the last appended value); both
start as `[0]`. -/
def compareAux : List (Bool × Nat × Nat) → List Nat → List Nat → List Nat × List Nat
  | [], da, vd => (da, vd)
  | (dFlag, lblVal, detVal) :: rest, da, vd =>
    if dFlag then
      if lblVal ≠ 0 then
        compareAux rest (if da.headD 0 = lblVal then da else lblVal :: da)
          (if vd.headD 0 = detVal then vd else detVal :: vd)
      else
        compareAux rest da vd
    else
      compareAux rest da vd

/-- `compare_lbl_detns(anomLbl, anomDetn, anomDetns)` (lines 135-152):
walks positions `0..len(anomDetn)-1` reading the three series in lock-step;
the final `pop(0)` drops the initial sentinel `0` of each list.  Returns
`(anomDetns, detected_anomalies, valid_detections)` like the source. -/
def compare_lbl_detns (anomLbl : List Nat) (anomDetn : List Bool) (anomDetns : List Nat) :
    List Nat × List Nat × List Nat :=
  let p := compareAux (anomDetn.zip (anomLbl.zip anomDetns)) [0] [0]
  (anomDetns, p.1.reverse.tail, p.2.reverse.tail)

/-- Python's `max` over a (nonempty, in every use here) list of
non-negative event identifiers. -/
def maxList (l : List Nat) : Nat := l.foldr max 0

/-- Loop of `false_detections` (lines 158-164).  The pointer `det_ind`
into `valid_detections` is embedded as the not-yet-consumed suffix of
that list; when it is exhausted (`det_ind == len(valid_detections)`) the
loop body does nothing. -/
def fdAux : List Nat → List Nat → List Nat
  | [], _ => []
  | _ :: is, [] => fdAux is []
  | i :: is, v :: vs => if i = v then fdAux is vs else i :: fdAux is (v :: vs)

/-- `false_detections(anomDetns, valid_detections)` (lines 155-166):
Python's `range(1, max(anomDetns[0]))` is the list `1, ..., max-1`. -/
def false_detections (anomDetns valid_detections : List Nat) : List Nat :=
  fdAux (List.range' 1 (maxList anomDetns - 1)) valid_detections

/-- `anomDetn.reindex(anomLbl.index)` (line 175): the detection series as
an association list over its index; reindexing keeps, for every key of the
reference index in order, the looked-up value (`none` = the NaN pandas
inserts for a missing key). -/
def reindexToRef (anomDetn : List (Nat × Bool)) (refIndex : List Nat) :
    List (Nat × Option Bool) :=
  refIndex.map (fun k => (k, anomDetn.lookup k))

/-- `anomDetn[anomDetn.isnull()] = True` (line 176): every null slot
becomes `True`, every present value is kept. -/
def fillNullTrue (s : List (Nat × Option Bool)) : List (Nat × Bool) :=
  s.map (fun p => (p.1, p.2.getD true))

/-- The Aligner: lines 175-176 of `windowing` composed. -/
def alignDetn (anomDetn : List (Nat × Bool)) (refIndex : List Nat) : List (Nat × Bool) :=
  fillNullTrue (reindexToRef anomDetn refIndex)

/-- Result record of `windowing` (line 186 returns
`anomLbl, anomDetn, anomDetns, detected_anomalies, invalid_detections`;
`anomDetn` itself is returned unchanged in the aligned setting and is
omitted here). -/
structure WindowResult where
  anomLbl : List Nat
  anomDetns : List Nat
  detected_anomalies : List Nat
  valid_detections : List Nat
  invalid_detections : List Nat
deriving DecidableEq

/-- `windowing(srs, normal_lbl, anomDetn)` (lines 169-186) for series that
already share one index, where the `reindex` of line 175 is the identity
(the claims about the pipeline act on aligned series; the reindex step
itself is `alignDetn`). -/
def windowingAligned (normal_lbl : List Bool) (anomDetn : List Bool) : WindowResult :=
  let anomLbl := determine_events normal_lbl
  let det_events := determine_detections anomDetn
  let c := compare_lbl_detns anomLbl anomDetn det_events
  ⟨anomLbl, c.1, c.2.1, c.2.2, false_detections c.1 c.2.2⟩

/-- The two ways `metrics` (lines 189-204) can raise: the `value_counts()[0]`
lookup when the label event series has no `0` (pandas `KeyError`), and a
zero denominator in a derived metric (Python `ZeroDivisionError`). -/
inductive MetricsError where
  | keyError
  | zeroDivisionError
deriving DecidableEq

/-- Lines 191-194 of `metrics`: the four confusion counts.
`value_counts()[ids]` indexed by a list of identifiers (all present in the
series in every pipeline-reachable call) sums to the total multiplicity of
those identifiers; `value_counts()[0]` raises `KeyError` when `0` does not
occur in `anomLbl`. -/
def confusionCounts (anomDetns : List Nat) (anomDetn : List Bool) (anomLbl : List Nat)
    (detected_anomalies invalid_detections : List Nat) :
    Except MetricsError (Int × Int × Int × Int) :=
  let TruePositives : Int := ((detected_anomalies.map (fun v => anomLbl.count v)).sum : Nat)
  if anomLbl.count 0 = 0 then .error .keyError else
  let FalseNegatives : Int := (anomDetn.length : Int) - (anomLbl.count 0 : Int) - TruePositives
  let FalsePositives : Int := ((invalid_detections.map (fun v => anomDetns.count v)).sum : Nat)
  let TrueNegatives : Int :=
    (anomDetn.length : Int) - TruePositives - FalseNegatives - FalsePositives
  .ok (TruePositives, FalseNegatives, FalsePositives, TrueNegatives)

/-- The scalar report of `metrics` (lines 196-204). -/
structure MetricReport where
  TruePositives : Int
  FalseNegatives : Int
  FalsePositives : Int
  TrueNegatives : Int
  PRC : Rat
  PPV : Rat
  NPV : Rat
  ACC : Rat
  RCL : Rat
  f1 : Rat
  f2 : Rat
deriving DecidableEq

/-- `metrics(anomDetns, anomDetn, anomLbl, detected_anomalies,
invalid_detections)` (lines 189-204).  Each Python division raises
`ZeroDivisionError` the moment its denominator is zero, aborting the whole
call; the divisions are laid out in source order. -/
def metrics (anomDetns : List Nat) (anomDetn : List Bool) (anomLbl : List Nat)
    (detected_anomalies invalid_detections : List Nat) : Except MetricsError MetricReport :=
  match confusionCounts anomDetns anomDetn anomLbl detected_anomalies invalid_detections with
  | .error e => .error e
  | .ok (tp, fn, fp, tn) =>
    if tp + fp = 0 then .error .zeroDivisionError else
    let prc : Rat := (tp : Rat) / ((tp + fp : Int) : Rat)
    if tn + fn = 0 then .error .zeroDivisionError else
    let npv : Rat := (tn : Rat) / ((tn + fn : Int) : Rat)
    if anomDetn.length = 0 then .error .zeroDivisionError else
    let acc : Rat := ((tp + tn : Int) : Rat) / (anomDetn.length : Rat)
    if tp + fn = 0 then .error .zeroDivisionError else
    let rcl : Rat := (tp : Rat) / ((tp + fn : Int) : Rat)
    if prc + rcl = 0 then .error .zeroDivisionError else
    let f1 : Rat := 2 * (prc * rcl) / (prc + rcl)
    if 5 * tp + 4 * fn + fp = 0 then .error .zeroDivisionError else
    let f2 : Rat := ((5 * tp : Int) : Rat) / ((5 * tp + 4 * fn + fp : Int) : Rat)
    .ok ⟨tp, fn, fp, tn, prc, prc, npv, acc, rcl, f1, f2⟩

/-- The script's evaluation (lines 261-263) up to the confusion counts:
`windowing` followed by lines 191-194 of `metrics`, on aligned series. -/
def script_counts (normal_lbl anomDetn : List Bool) :
    Except MetricsError (Int × Int × Int × Int) :=
  let w := windowingAligned normal_lbl anomDetn
  confusionCounts w.anomDetns anomDetn w.anomLbl w.detected_anomalies w.invalid_detections

/-- The script's evaluation (lines 261-263) through the full `metrics`. -/
def script_metrics (normal_lbl anomDetn : List Bool) : Except MetricsError MetricReport :=
  let w := windowingAligned normal_lbl anomDetn
  metrics w.anomDetns anomDetn w.anomLbl w.detected_anomalies w.invalid_detections

deriving instance DecidableEq for Except

/-! ### Specification-side definitions used to characterise the code -/

/-- Modelled from the spec's words for claim C2 (the Classifier's claimed
output, for comparison with `false_detections`): "Walk identifiers 1
through `max(detectionEvents)`; any identifier not present in
`validDetections`, in order, is a false alarm." -/
def classifierClaimed (anomDetns valid_detections : List Nat) : List Nat :=
  (List.range' 1 (maxList anomDetns)).filter (fun i => !(valid_detections.contains i))

/-- Adjacency deduplication against the last appended value, with the
accumulator kept reversed exactly as in `compareAux`. -/
def dd : List Nat → List Nat → List Nat
  | [], acc => acc
  | v :: t, acc => dd t (if acc.headD 0 = v then acc else v :: acc)

/-- Append-unless-equal-to-last over a stream, started from the sentinel
`[0]`, with the sentinel popped at the end — the post-processing
`compare_lbl_detns` applies to each of its two accumulators. -/
def adjacencyDedup (t : List Nat) : List Nat := (dd t [0]).reverse.tail

/-- The label-event values the Matcher's loop feeds its first accumulator:
`anomLbl[i]` at exactly the positions `i` where `anomDetn[i]` is true and
`anomLbl[i] ≠ 0`. -/
def matcherLblStream (anomDetn : List Bool) (anomLbl anomDetns : List Nat) : List Nat :=
  (anomDetn.zip (anomLbl.zip anomDetns)).filterMap
    (fun p => if p.1 && !(p.2.1 == 0) then some p.2.1 else none)

/-- The detection-event values the Matcher's loop feeds its second
accumulator: `anomDetns[i]` at the same positions. -/
def matcherDetStream (anomDetn : List Bool) (anomLbl anomDetns : List Nat) : List Nat :=
  (anomDetn.zip (anomLbl.zip anomDetns)).filterMap
    (fun p => if p.1 && !(p.2.1 == 0) then some p.2.2 else none)

/-- The event-series values at the anomalous positions of a `normal_lbl`
series (the positions a matcher driven by the matching flag series would
visit). -/
def avals (l : List Bool) (e : List Nat) : List Nat :=
  (l.zip e).filterMap (fun p => if p.1 then none else some p.2)

/-- The final value of the `determine_events` counter from a given loop
state. -/
def finalCount : Bool → List Bool → Nat → Nat
  | _, [], c => c
  | prev, x :: rest, c =>
    if !x then
      if prev then finalCount x rest (c + 1) else finalCount x rest c
    else finalCount x rest c

/-- The values `determine_events` writes at the anomalous positions of the
remaining input, from a given loop state (the retroactive write at a run
start lands on a normal position, so it never shows up here). -/
def streamOf : Bool → List Bool → Nat → List Nat
  | _, [], _ => []
  | prev, x :: rest, c =>
    if !x then
      if prev then (c + 1) :: streamOf x rest (c + 1) else c :: streamOf x rest c
    else streamOf x rest c

/-! ### Basic facts about the segmenter loop -/

/-- Every loop step extends the built list by exactly one element. -/
theorem eventsAux_length : ∀ (rest : List Bool) (prev : Bool) (c : Nat) (es : List Nat),
    0 < es.length → (eventsAux prev rest c es).length = es.length + rest.length
  | [], _, _, _, _ => rfl
  | x :: rest, prev, c, es, h => by
    cases x <;> cases prev
    · show (eventsAux false rest c (es ++ [c])).length = es.length + (false :: rest).length
      rw [eventsAux_length rest false c (es ++ [c]) (by simp)]
      simp; omega
    · show (eventsAux false rest (c + 1) ((es.dropLast ++ [c + 1]) ++ [c + 1])).length
        = es.length + (false :: rest).length
      rw [eventsAux_length rest false (c + 1) _ (by simp)]
      simp [List.length_dropLast]; omega
    · show (eventsAux true rest c (es ++ [c])).length = es.length + (true :: rest).length
      rw [eventsAux_length rest true c (es ++ [c]) (by simp)]
      simp; omega
    · show (eventsAux true rest c (es ++ [0])).length = es.length + (true :: rest).length
      rw [eventsAux_length rest true c (es ++ [0]) (by simp)]
      simp; omega

/-- Positions strictly before the last built element are never rewritten. -/
theorem eventsAux_stable : ∀ (rest : List Bool) (prev : Bool) (c : Nat)
    (es : List Nat) (k : Nat), k + 1 < es.length →
    (eventsAux prev rest c es)[k]? = es[k]?
  | [], _, _, _, _, _ => rfl
  | x :: rest, prev, c, es, k, h => by
    have hdl : es.dropLast[k]? = es[k]? := by
      rw [List.dropLast_eq_take, List.getElem?_take_of_lt]; omega
    cases x <;> cases prev
    · show (eventsAux false rest c (es ++ [c]))[k]? = es[k]?
      rw [eventsAux_stable rest false c (es ++ [c]) k (by simp; omega),
        List.getElem?_append_left (by omega)]
    · show (eventsAux false rest (c + 1) ((es.dropLast ++ [c + 1]) ++ [c + 1]))[k]? = es[k]?
      rw [eventsAux_stable rest false (c + 1) _ k
          (by simp [List.length_dropLast]; omega),
        List.getElem?_append_left (by simp [List.length_dropLast]; omega),
        List.getElem?_append_left (by simp [List.length_dropLast]; omega), hdl]
    · show (eventsAux true rest c (es ++ [c]))[k]? = es[k]?
      rw [eventsAux_stable rest true c (es ++ [c]) k (by simp; omega),
        List.getElem?_append_left (by omega)]
    · show (eventsAux true rest c (es ++ [0]))[k]? = es[k]?
      rw [eventsAux_stable rest true c (es ++ [0]) k (by simp; omega),
        List.getElem?_append_left (by omega)]

/-- A loop position whose flag is normal, whose predecessor is normal and
whose successor (if any) is normal receives the value `0` and keeps it. -/
theorem eventsAux_zero_at_quiet : ∀ (rest : List Bool) (prev : Bool) (c : Nat)
    (es : List Nat) (j : Nat), 0 < es.length →
    rest[j]? = some true →
    (j = 0 → prev = true) →
    (∀ j', j = j' + 1 → rest[j']? = some true) →
    (rest[j + 1]? = some true ∨ rest.length = j + 1) →
    (eventsAux prev rest c es)[es.length + j]? = some 0
  | [], _, _, _, j, _, hj, _, _, _ => by simp at hj
  | x :: rest, prev, c, es, j, hes, hj, h0, hpred, hnext => by
    match j, hj with
    | 0, hj =>
      have hx : x = true := by simpa using hj
      have hp : prev = true := h0 rfl
      subst hx; subst hp
      show (eventsAux true rest c (es ++ [0]))[es.length + 0]? = some 0
      match rest, hnext with
      | [], _ =>
        show (es ++ [0])[es.length + 0]? = some 0
        simp
      | y :: rest', hnext =>
        have hy : y = true := by
          rcases hnext with h | h
          · simpa using h
          · simp at h
        subst hy
        show (eventsAux true (true :: rest') c (es ++ [0]))[es.length + 0]? = some 0
        have heq : (eventsAux true (true :: rest') c (es ++ [0]))[es.length]?
            = (eventsAux true rest' c ((es ++ [0]) ++ [0]))[es.length]? := rfl
        rw [Nat.add_zero, heq,
          eventsAux_stable rest' true c ((es ++ [0]) ++ [0]) es.length (by simp),
          List.getElem?_append_left (by simp)]
        simp
    | j' + 1, hj =>
      have hrec : ∀ (prev' : Bool) (c' : Nat) (es' : List Nat),
          (j' = 0 → prev' = true) → 0 < es'.length → es'.length = es.length + 1 →
          (eventsAux prev' rest c' es')[es.length + (j' + 1)]? = some 0 := by
        intro prev' c' es' hpv hpos hlen
        have h := eventsAux_zero_at_quiet rest prev' c' es' j' hpos
          (by simpa using hj) hpv
          (by
            intro j'' hj''
            subst hj''
            have := hpred (j'' + 1) rfl
            simpa using this)
          (by
            rcases hnext with h | h
            · exact Or.inl (by simpa using h)
            · exact Or.inr (by simp at h ⊢; omega))
        rw [show es.length + (j' + 1) = es'.length + j' by omega]
        exact h
      cases x <;> cases prev
      · exact hrec false c (es ++ [c])
          (by intro hj0; subst hj0; have := hpred 0 rfl; simp at this)
          (by simp) (by simp)
      · exact hrec false (c + 1) ((es.dropLast ++ [c + 1]) ++ [c + 1])
          (by intro hj0; subst hj0; have := hpred 0 rfl; simp at this)
          (by simp) (by simp [List.length_dropLast]; omega)
      · exact hrec true c (es ++ [c]) (fun _ => rfl) (by simp) (by simp)
      · exact hrec true c (es ++ [0]) (fun _ => rfl) (by simp) (by simp)

/-! ### Claim C1: values of the Segmenter at unflagged positions -/

/-- C1 (counterexample).  For the flag sequence `[F, T, F]` — i.e.
`normal_lbl = [true, false, true]` — position 2 has flag `False` and is not
immediately before any run start (it is the last position), yet
`determine_events` assigns it the value 1, not 0: the code also widens an
event onto the position immediately after a run's end, so the claimed
"0 iff flag is False" invariant fails. -/
theorem claim_c1_counterexample :
    determine_events [true, false, true] = [1, 1, 1] ∧
    (determine_events [true, false, true]).getD 2 7 = 1 := by
  constructor <;> rfl

/-- C1 (as amended).  At a position `i ≥ 1` whose flag is `False`
(`normal_lbl` is `true`), the Segmenter assigns 0 provided the position is
neither immediately after a flagged point (`normal_lbl[i-1]` must also be
`true`) nor immediately before a run start (`normal_lbl[i+1]` is `true`,
or `i` is the last position).  At the two excluded kinds of position the
code performs its ±1 event widening and may assign the event counter
instead. -/
theorem segmenter_zero_at_quiet_position (l : List Bool) (i : Nat) (h1 : 1 ≤ i)
    (h2 : l[i]? = some true) (h3 : l[i - 1]? = some true)
    (h4 : l[i + 1]? = some true ∨ l.length = i + 1) :
    (determine_events l)[i]? = some 0 := by
  match l, i, h1 with
  | x :: xs, j + 1, _ =>
    show (eventsAux x xs 0 [0])[j + 1]? = some 0
    have h := eventsAux_zero_at_quiet xs x 0 [0] j (by simp)
      (by simpa using h2)
      (by
        intro hj0
        subst hj0
        simpa using h3)
      (by
        intro j' hj'
        subst hj'
        simpa using h3)
      (by
        rcases h4 with h | h
        · exact Or.inl (by simpa using h)
        · exact Or.inr (by simp at h ⊢; omega))
    rw [show j + 1 = 1 + j by omega]
    simpa using h

/-- C1 (witness): the amended statement at `normal_lbl = [true, true, true]`,
position 1. -/
theorem segmenter_zero_at_quiet_position_witness :
    (determine_events [true, true, true])[1]? = some 0 :=
  segmenter_zero_at_quiet_position [true, true, true] 1 (by decide) (by decide)
    (by decide) (by decide)

/-! ### Claim C8: all-False and all-True flag sequences -/

/-- An all-normal suffix only ever appends zeros. -/
theorem eventsAux_replicate_true : ∀ (n c : Nat) (es : List Nat),
    eventsAux true (List.replicate n true) c es = es ++ List.replicate n 0
  | 0, _, es => by simp [eventsAux]
  | n + 1, c, es => by
    show eventsAux true (List.replicate n true) c (es ++ [0]) = es ++ List.replicate (n + 1) 0
    rw [eventsAux_replicate_true n c (es ++ [0])]
    simp [List.replicate_succ]

/-- An all-anomalous suffix with an anomalous predecessor never increments
the counter and appends the current counter value throughout. -/
theorem eventsAux_replicate_false : ∀ (n c : Nat) (es : List Nat),
    eventsAux false (List.replicate n false) c es = es ++ List.replicate n c
  | 0, _, es => by simp [eventsAux]
  | n + 1, c, es => by
    show eventsAux false (List.replicate n false) c (es ++ [c]) = es ++ List.replicate (n + 1) c
    rw [eventsAux_replicate_false n c (es ++ [c])]
    simp [List.replicate_succ]

/-- C8 (counterexample).  Segmenting the all-`True` flag sequence of
length 3 (`normal_lbl = [false, false, false]`) yields all zeros — the
counter is only ever incremented on a False-to-True transition at a
position `i ≥ 1`, which an all-`True` sequence never has — and in
particular position 1 carries 0, not a positive identifier as claimed. -/
theorem claim_c8_counterexample :
    determine_events [false, false, false] = [0, 0, 0] ∧
    (determine_events [false, false, false]).getD 1 7 = 0 := by
  constructor <;> rfl

/-- C8 (as amended).  Segmenting an all-`False` flag sequence
(`normal_lbl` all `true`) of length `n ≥ 1` yields all zeros, and
segmenting an all-`True` flag sequence (`normal_lbl` all `false`) of
length `n ≥ 1` also yields all zeros: a run that starts at position 0 is
never counted, so no positive identifier is ever produced. -/
theorem segmenter_constant_sequences (n : Nat) (h : 1 ≤ n) :
    determine_events (List.replicate n true) = List.replicate n 0 ∧
    determine_events (List.replicate n false) = List.replicate n 0 := by
  match n, h with
  | m + 1, _ =>
    constructor
    · show determine_events (true :: List.replicate m true) = _
      show eventsAux true (List.replicate m true) 0 [0] = _
      rw [eventsAux_replicate_true m 0 [0]]
      simp [List.replicate_succ]
    · show determine_events (false :: List.replicate m false) = _
      show eventsAux false (List.replicate m false) 0 [0] = _
      rw [eventsAux_replicate_false m 0 [0]]
      simp [List.replicate_succ]

/-- C8 (witness): the amended statement at length 3. -/
theorem segmenter_constant_sequences_witness :
    determine_events (List.replicate 3 true) = List.replicate 3 0 ∧
    determine_events (List.replicate 3 false) = List.replicate 3 0 :=
  segmenter_constant_sequences 3 (by decide)

/-! ### Claim C2: the Classifier -/

/-- Once the pointer into `valid_detections` is exhausted, the loop of
`false_detections` appends nothing more. -/
theorem fdAux_nil : ∀ is, fdAux is [] = []
  | [] => rfl
  | _ :: is => fdAux_nil is

theorem fdAux_range'_eq_filter : ∀ (n s : Nat) (vs : List Nat),
    vs.Pairwise (· < ·) → (∀ v ∈ vs, s ≤ v) →
    fdAux (List.range' s n) vs =
      (List.range' s n).filter
        (fun i => !(vs.contains i) && vs.any (fun v => decide (i < v)))
  | 0, _, _, _, _ => rfl
  | n + 1, s, vs, hp, hge => by
    show fdAux (s :: List.range' (s + 1) n) vs
      = (s :: List.range' (s + 1) n).filter _
    match vs, hp, hge with
    | [], _, _ => simp [fdAux_nil]
    | v :: vs', hp, hge =>
      have hsv : s ≤ v := hge v (by simp)
      have hvlt : ∀ u ∈ vs', v < u := fun u hu => (List.pairwise_cons.1 hp).1 u hu
      by_cases hsv' : s = v
      · subst hsv'
        have hstep : fdAux (s :: List.range' (s + 1) n) (s :: vs')
            = fdAux (List.range' (s + 1) n) vs' := by
          show (if s = s then fdAux (List.range' (s + 1) n) vs'
              else s :: fdAux (List.range' (s + 1) n) (s :: vs')) = _
          rw [if_pos rfl]
        rw [hstep, fdAux_range'_eq_filter n (s + 1) vs' (List.pairwise_cons.1 hp).2
            (fun u hu => by have := hvlt u hu; omega)]
        rw [List.filter_cons]
        have hcond : (!(List.contains (s :: vs') s)
            && List.any (s :: vs') (fun v => decide (s < v))) = false := by simp
        rw [hcond]
        simp only [Bool.false_eq_true, if_false]
        refine (List.filter_congr ?_).symm
        intro i hi
        have his : s + 1 ≤ i := (List.mem_range'_1.1 hi).1
        have h1 : ¬ i = s := by omega
        have h2 : ¬ i < s := by omega
        simp [h1, h2]
      · have hlt : s < v := by omega
        have hstep : fdAux (s :: List.range' (s + 1) n) (v :: vs')
            = s :: fdAux (List.range' (s + 1) n) (v :: vs') := by
          show (if s = v then fdAux (List.range' (s + 1) n) vs'
              else s :: fdAux (List.range' (s + 1) n) (v :: vs')) = _
          rw [if_neg hsv']
        have hns : s ∉ v :: vs' := by
          intro hmem
          rcases List.mem_cons.1 hmem with h | h
          · omega
          · have := hvlt s h; omega
        rw [hstep, fdAux_range'_eq_filter n (s + 1) (v :: vs') hp
            (by
              intro u hu
              rcases List.mem_cons.1 hu with h | h
              · omega
              · have := hvlt u h; omega)]
        rw [List.filter_cons]
        have hcond : (!(List.contains (v :: vs') s)
            && List.any (v :: vs') (fun u => decide (s < u))) = true := by
          simp only [Bool.and_eq_true, Bool.not_eq_true', List.any_eq_true,
            decide_eq_true_eq]
          constructor
          · simpa using hns
          · exact ⟨v, by simp, hlt⟩
        rw [hcond]
        simp

/-- C2 (counterexample).  With detection events `[0, 1, 1]` (reachable:
they segment the detection flags `[F, F, T]`) and no valid detections,
the code returns no false alarm at all, although identifier
`1 = max(detectionEvents)` is absent from `validDetections`, so the claim
requires it in the output: the loop stops short of the maximum identifier
and does nothing once the `validDetections` pointer is exhausted. -/
theorem claim_c2_counterexample :
    false_detections [0, 1, 1] [] = [] ∧
    classifierClaimed [0, 1, 1] [] = [1] ∧
    determine_detections [false, false, true] = [0, 1, 1] :=
  ⟨rfl, rfl, rfl⟩

/-- C2 (as amended).  For a strictly increasing `valid_detections` list of
positive identifiers (the shape the Matcher produces), `false_detections`
returns, in increasing order, exactly the identifiers `i` with
`1 ≤ i < max(detectionEvents)` that are absent from `valid_detections`
and smaller than some member of `valid_detections`: the maximum event
identifier is never examined, and identifiers beyond the last valid
detection are silently skipped. -/
theorem false_detections_eq_filter (anomDetns valid_detections : List Nat)
    (hp : valid_detections.Pairwise (· < ·))
    (h1 : ∀ v ∈ valid_detections, 1 ≤ v) :
    false_detections anomDetns valid_detections =
      (List.range' 1 (maxList anomDetns - 1)).filter
        (fun i => !(valid_detections.contains i)
          && valid_detections.any (fun v => decide (i < v))) :=
  fdAux_range'_eq_filter (maxList anomDetns - 1) 1 valid_detections hp h1

/-- C2 (witness): the amended statement at detection events
`[1, 1, 1, 2, 2, 2]` with `valid_detections = [2]`, where both sides
evaluate to `[1]`. -/
theorem false_detections_eq_filter_witness :
    false_detections [1, 1, 1, 2, 2, 2] [2] =
      (List.range' 1 (maxList [1, 1, 1, 2, 2, 2] - 1)).filter
        (fun i => !(List.contains [2] i)
          && List.any [2] (fun v => decide (i < v))) :=
  false_detections_eq_filter [1, 1, 1, 2, 2, 2] [2] (by simp) (by simp)

/-! ### Claim C9: the Aligner -/

/-- C9.  `alignDetn` reindexes the detection flags to the reference index:
the keys of the result are exactly `refIndex` in order; every reference
position carried by the detection series keeps its original flag; every
reference position absent from the detection series is filled with `True`.
-/
theorem alignDetn_spec (anomDetn : List (Nat × Bool)) (refIndex : List Nat) :
    (alignDetn anomDetn refIndex).map Prod.fst = refIndex ∧
    (∀ k ∈ refIndex, ∀ b, anomDetn.lookup k = some b →
      (k, b) ∈ alignDetn anomDetn refIndex) ∧
    (∀ k ∈ refIndex, anomDetn.lookup k = none →
      (k, true) ∈ alignDetn anomDetn refIndex) := by
  have hform : alignDetn anomDetn refIndex
      = refIndex.map (fun k => (k, (anomDetn.lookup k).getD true)) := by
    unfold alignDetn fillNullTrue reindexToRef
    rw [List.map_map]
    rfl
  refine ⟨?_, ?_, ?_⟩
  · rw [hform, List.map_map]
    exact List.map_id refIndex
  · intro k hk b hb
    rw [hform]
    refine List.mem_map.2 ⟨k, hk, ?_⟩
    rw [hb]
    rfl
  · intro k hk hb
    rw [hform]
    refine List.mem_map.2 ⟨k, hk, ?_⟩
    rw [hb]
    rfl

/-- C9 (witness): aligning the detection series `{1 ↦ false, 2 ↦ true}` to
the reference index `[0, 1, 2]` keeps both present values and fills the
missing key 0 with `True`. -/
theorem alignDetn_spec_witness :
    (alignDetn [(1, false), (2, true)] [0, 1, 2]).map Prod.fst = [0, 1, 2] ∧
    (1, false) ∈ alignDetn [(1, false), (2, true)] [0, 1, 2] ∧
    (0, true) ∈ alignDetn [(1, false), (2, true)] [0, 1, 2] :=
  ⟨(alignDetn_spec [(1, false), (2, true)] [0, 1, 2]).1,
   (alignDetn_spec [(1, false), (2, true)] [0, 1, 2]).2.1 1 (by decide) false rfl,
   (alignDetn_spec [(1, false), (2, true)] [0, 1, 2]).2.2 0 (by decide) rfl⟩

/-! ### Claim C10: the `value_counts()[0]` lookup in `metrics` -/

/-- C10.  The confusion-count stage fails with the `KeyError` of
`anomLbl[0].value_counts()[0]` exactly when the label event series
contains no zero; whenever it contains at least one zero the
`FalseNegatives` computation succeeds.  The zero-free shape is reachable:
label flags `[F, T, T]` (`normal_lbl = [true, false, false]`) segment to
`[1, 1, 1]`, which has no zero. -/
theorem confusionCounts_keyError_iff :
    (∀ (anomDetns : List Nat) (anomDetn : List Bool) (anomLbl : List Nat)
      (detected_anomalies invalid_detections : List Nat),
      confusionCounts anomDetns anomDetn anomLbl detected_anomalies invalid_detections
          = .error .keyError ↔ ¬ 0 ∈ anomLbl) ∧
    determine_events [true, false, false] = [1, 1, 1] ∧ ¬ 0 ∈ [1, 1, 1] := by
  refine ⟨?_, rfl, by decide⟩
  intro anomDetns anomDetn anomLbl detected invalid
  unfold confusionCounts
  by_cases h : anomLbl.count 0 = 0
  · rw [if_pos h]
    simp [List.count_eq_zero.1 h]
  · rw [if_neg h]
    constructor
    · intro hcontra
      exact absurd hcontra (by simp)
    · intro hmem
      exact absurd (List.count_eq_zero.2 hmem) h

/-! ### Claim C4: the confusion counts can go negative -/

/-- C4.  A reachable pipeline run on which the code's confusion counts
violate non-negativity: label flags `[F,F,F,T,T,F]`
(`normal_lbl = [true,true,true,false,false,true]`) and detection flags
`[F,T,F,F,T,F]`.  The lone detection at position 1 is widened onto
positions 0 and 2, overlaps no labelled point at its own flag-true
position, and is classified invalid, while position 2 also belongs to the
widened label event, so the point is double-counted in both TP and FP and
the code reports `TN = -1` (the four counts still sum to the length 6). -/
theorem claim_c4_negative_count :
    script_counts [true, true, true, false, false, true]
      [false, true, false, false, true, false] = .ok (4, 0, 3, -1) := by
  rfl

/-! ### Claim C7: a zero denominator aborts the whole report -/

/-- C7.  With label flags `[F,F,T,F]` and no detections at all,
`TP + FP = 0` and the very first derived metric `PRC = TP/(TP+FP)` raises
`ZeroDivisionError`: the single exception aborts the entire `metrics`
call, so no per-metric "undefined" results are produced. -/
theorem claim_c7_zero_denominator_crash :
    script_metrics [true, true, false, true] [false, false, false, false]
      = .error .zeroDivisionError := by
  rfl

/-! ### The two segmenters agree up to flag polarity -/

/-- `determine_detections` run on the negated flags performs exactly the
computation of `determine_events`. -/
theorem detAux_eq_eventsAux : ∀ (rest : List Bool) (prev : Bool) (c : Nat) (es : List Nat),
    detAux (!prev) (rest.map (fun b => !b)) c es = eventsAux prev rest c es
  | [], _, _, _ => rfl
  | x :: rest, prev, c, es => by
    cases x <;> cases prev
    · exact detAux_eq_eventsAux rest false c (es ++ [c])
    · exact detAux_eq_eventsAux rest false (c + 1) ((es.dropLast ++ [c + 1]) ++ [c + 1])
    · exact detAux_eq_eventsAux rest true c (es ++ [c])
    · exact detAux_eq_eventsAux rest true c (es ++ [0])

/-- The Segmenter is one routine: `determine_detections` on detection
flags equals `determine_events` on the matching `normal_lbl` series. -/
theorem determine_detections_map_not (l : List Bool) :
    determine_detections (l.map (fun b => !b)) = determine_events l := by
  cases l with
  | nil => rfl
  | cons x rest => exact detAux_eq_eventsAux rest x 0 [0]

/-! ### The event values seen at anomalous positions -/

theorem avals_nil_r (l : List Bool) : avals l [] = [] := by
  simp [avals]

theorem avals_append (l₀ : List Bool) (es : List Nat) (h : l₀.length = es.length)
    (x : Bool) (v : Nat) :
    avals (l₀ ++ [x]) (es ++ [v]) = avals l₀ es ++ (if x then [] else [v]) := by
  unfold avals
  rw [List.zip_append h, List.filterMap_append]
  cases x <;> simp

theorem avals_dropLast : ∀ (l₀ : List Bool) (es : List Nat) (v : Nat),
    l₀.length = es.length → l₀.getLast? = some true →
    avals l₀ (es.dropLast ++ [v]) = avals l₀ es
  | [], _, _, _, hlast => by simp at hlast
  | [a], es, v, hlen, hlast => by
    match es, hlen with
    | [e], _ =>
      have ha : a = true := by simpa using hlast
      subst ha
      rfl
  | a :: b :: l₀, es, v, hlen, hlast => by
    match es, hlen with
    | e :: e' :: es', hlen =>
      have hlast' : (b :: l₀).getLast? = some true := by
        rw [List.getLast?_cons_cons] at hlast
        exact hlast
      have hrec := avals_dropLast (b :: l₀) (e' :: es') v (by simpa using hlen) hlast'
      have hdl : (e :: e' :: es').dropLast = e :: (e' :: es').dropLast := rfl
      rw [hdl]
      cases a
      · show e :: avals (b :: l₀) ((e' :: es').dropLast ++ [v])
          = e :: avals (b :: l₀) (e' :: es')
        rw [hrec]
      · show avals (b :: l₀) ((e' :: es').dropLast ++ [v]) = avals (b :: l₀) (e' :: es')
        exact hrec

/-- Decomposition of the anomalous-position values of the segmenter's
output: the values over the consumed prefix are unchanged (the retroactive
write only ever lands on a normal position) and the rest is `streamOf`. -/
theorem eventsAux_avals : ∀ (rest : List Bool) (prev : Bool) (c : Nat) (es : List Nat)
    (l₀ : List Bool), l₀.length = es.length → l₀.getLast? = some prev →
    avals (l₀ ++ rest) (eventsAux prev rest c es) = avals l₀ es ++ streamOf prev rest c
  | [], prev, c, es, l₀, _, _ => by simp [streamOf, eventsAux]
  | x :: rest, prev, c, es, l₀, hlen, hlast => by
    have hlen0 : 0 < l₀.length := by
      cases l₀
      · simp at hlast
      · simp
    have hsplit : l₀ ++ x :: rest = (l₀ ++ [x]) ++ rest := by simp
    cases x <;> cases prev
    · show avals (l₀ ++ false :: rest) (eventsAux false rest c (es ++ [c]))
        = avals l₀ es ++ (c :: streamOf false rest c)
      rw [hsplit, eventsAux_avals rest false c (es ++ [c]) (l₀ ++ [false])
          (by simp [hlen]) (by simp),
        avals_append l₀ es hlen false c]
      simp
    · show avals (l₀ ++ false :: rest)
          (eventsAux false rest (c + 1) ((es.dropLast ++ [c + 1]) ++ [c + 1]))
        = avals l₀ es ++ ((c + 1) :: streamOf false rest (c + 1))
      rw [hsplit, eventsAux_avals rest false (c + 1) ((es.dropLast ++ [c + 1]) ++ [c + 1])
          (l₀ ++ [false]) (by simp [List.length_dropLast]; omega) (by simp),
        avals_append l₀ (es.dropLast ++ [c + 1])
          (by simp [List.length_dropLast]; omega) false (c + 1),
        avals_dropLast l₀ es (c + 1) hlen hlast]
      simp
    · show avals (l₀ ++ true :: rest) (eventsAux true rest c (es ++ [c]))
        = avals l₀ es ++ streamOf true rest c
      rw [hsplit, eventsAux_avals rest true c (es ++ [c]) (l₀ ++ [true])
          (by simp [hlen]) (by simp),
        avals_append l₀ es hlen true c]
      simp
    · show avals (l₀ ++ true :: rest) (eventsAux true rest c (es ++ [0]))
        = avals l₀ es ++ streamOf true rest c
      rw [hsplit, eventsAux_avals rest true c (es ++ [0]) (l₀ ++ [true])
          (by simp [hlen]) (by simp),
        avals_append l₀ es hlen true 0]
      simp

/-! ### Properties of the counter stream -/

theorem finalCount_ge : ∀ (rest : List Bool) (prev : Bool) (c : Nat),
    c ≤ finalCount prev rest c
  | [], _, _ => le_refl _
  | x :: rest, prev, c => by
    cases x <;> cases prev
    · exact finalCount_ge rest false c
    · exact le_trans (Nat.le_succ c) (finalCount_ge rest false (c + 1))
    · exact finalCount_ge rest true c
    · exact finalCount_ge rest true c

theorem streamOf_ge : ∀ (rest : List Bool) (prev : Bool) (c : Nat),
    ∀ v ∈ streamOf prev rest c, c ≤ v
  | [], _, _ => by simp [streamOf]
  | x :: rest, prev, c => by
    cases x <;> cases prev
    · show ∀ v ∈ c :: streamOf false rest c, c ≤ v
      intro v hv
      rcases List.mem_cons.1 hv with h | h
      · omega
      · exact streamOf_ge rest false c v h
    · show ∀ v ∈ (c + 1) :: streamOf false rest (c + 1), c ≤ v
      intro v hv
      rcases List.mem_cons.1 hv with h | h
      · omega
      · have := streamOf_ge rest false (c + 1) v h; omega
    · exact fun v hv => streamOf_ge rest true c v hv
    · exact fun v hv => streamOf_ge rest true c v hv

theorem streamOf_le : ∀ (rest : List Bool) (prev : Bool) (c : Nat),
    ∀ v ∈ streamOf prev rest c, v ≤ finalCount prev rest c
  | [], _, _ => by simp [streamOf]
  | x :: rest, prev, c => by
    cases x <;> cases prev
    · show ∀ v ∈ c :: streamOf false rest c, v ≤ finalCount false rest c
      intro v hv
      rcases List.mem_cons.1 hv with h | h
      · rw [h]; exact finalCount_ge rest false c
      · exact streamOf_le rest false c v h
    · show ∀ v ∈ (c + 1) :: streamOf false rest (c + 1), v ≤ finalCount false rest (c + 1)
      intro v hv
      rcases List.mem_cons.1 hv with h | h
      · rw [h]; exact finalCount_ge rest false (c + 1)
      · exact streamOf_le rest false (c + 1) v h
    · exact fun v hv => streamOf_le rest true c v hv
    · exact fun v hv => streamOf_le rest true c v hv

theorem streamOf_pairwise : ∀ (rest : List Bool) (prev : Bool) (c : Nat),
    (streamOf prev rest c).Pairwise (· ≤ ·)
  | [], _, _ => by simp [streamOf]
  | x :: rest, prev, c => by
    cases x <;> cases prev
    · show (c :: streamOf false rest c).Pairwise (· ≤ ·)
      exact List.pairwise_cons.2 ⟨streamOf_ge rest false c, streamOf_pairwise rest false c⟩
    · show ((c + 1) :: streamOf false rest (c + 1)).Pairwise (· ≤ ·)
      exact List.pairwise_cons.2
        ⟨streamOf_ge rest false (c + 1), streamOf_pairwise rest false (c + 1)⟩
    · exact streamOf_pairwise rest true c
    · exact streamOf_pairwise rest true c

theorem streamOf_mem : ∀ (rest : List Bool) (prev : Bool) (c k : Nat),
    c < k → k ≤ finalCount prev rest c → k ∈ streamOf prev rest c
  | [], _, c, k, h1, h2 => by
    simp [finalCount] at h2
    omega
  | x :: rest, prev, c, k, h1, h2 => by
    cases x <;> cases prev
    · show k ∈ c :: streamOf false rest c
      exact List.mem_cons.2 (Or.inr (streamOf_mem rest false c k h1 h2))
    · show k ∈ (c + 1) :: streamOf false rest (c + 1)
      by_cases hk : k = c + 1
      · exact List.mem_cons.2 (Or.inl hk)
      · exact List.mem_cons.2 (Or.inr (streamOf_mem rest false (c + 1) k (by omega) h2))
    · exact streamOf_mem rest true c k h1 h2
    · exact streamOf_mem rest true c k h1 h2

/-- Every value the segmenter loop ever writes is bounded by the final
counter value. -/
theorem eventsAux_le : ∀ (rest : List Bool) (prev : Bool) (c : Nat) (es : List Nat),
    (∀ v ∈ es, v ≤ c) → ∀ v ∈ eventsAux prev rest c es, v ≤ finalCount prev rest c
  | [], _, c, es, hes => by
    intro v hv
    show v ≤ c
    exact hes v hv
  | x :: rest, prev, c, es, hes => by
    cases x <;> cases prev
    · exact eventsAux_le rest false c (es ++ [c])
        (by
          intro v hv
          rcases List.mem_append.1 hv with h | h
          · exact hes v h
          · simp at h; omega)
    · exact eventsAux_le rest false (c + 1) ((es.dropLast ++ [c + 1]) ++ [c + 1])
        (by
          intro v hv
          rcases List.mem_append.1 hv with h | h
          · rcases List.mem_append.1 h with h' | h'
            · have := hes v ((List.dropLast_sublist es).mem h')
              omega
            · simp at h'; omega
          · simp at h; omega)
    · exact eventsAux_le rest true c (es ++ [c])
        (by
          intro v hv
          rcases List.mem_append.1 hv with h | h
          · exact hes v h
          · simp at h; omega)
    · exact eventsAux_le rest true c (es ++ [0])
        (by
          intro v hv
          rcases List.mem_append.1 hv with h | h
          · exact hes v h
          · simp at h; omega)

theorem maxList_le (l : List Nat) (K : Nat) (h : ∀ v ∈ l, v ≤ K) : maxList l ≤ K := by
  induction l with
  | nil => simp [maxList]
  | cons a t ih =>
    show max a (maxList t) ≤ K
    have h1 : a ≤ K := h a (by simp)
    have h2 : maxList t ≤ K := ih (fun v hv => h v (by simp [hv]))
    omega

/-! ### Counting lemmas -/

theorem count_zero_add_countP (e : List Nat) :
    e.count 0 + e.countP (fun v => !(v == 0)) = e.length := by
  induction e with
  | nil => rfl
  | cons v t ih =>
    by_cases hv : v = 0
    · subst hv
      simp [List.count_cons, List.countP_cons]
      omega
    · simp [List.count_cons, List.countP_cons, hv]
      omega

theorem sum_counts_cons : ∀ (R : List Nat) (v : Nat) (t : List Nat),
    (R.map (fun k => List.count k (v :: t))).sum
      = (R.map (fun k => List.count k t)).sum + R.count v
  | [], _, _ => rfl
  | k :: R, v, t => by
    have ih := sum_counts_cons R v t
    show List.count k (v :: t) + (R.map (fun k => List.count k (v :: t))).sum
      = (List.count k t + (R.map (fun k => List.count k t)).sum) + List.count v (k :: R)
    rw [ih, List.count_cons k v t, List.count_cons v k R]
    by_cases hkv : v = k
    · subst hkv
      simp
      omega
    · rw [if_neg (by simp [hkv]), if_neg (by simp [Ne.symm hkv])]
      omega

theorem sum_counts_range' (e : List Nat) (K : Nat) (h : ∀ v ∈ e, v ≤ K) :
    ((List.range' 1 K).map (fun k => e.count k)).sum
      = e.countP (fun v => !(v == 0)) := by
  induction e with
  | nil => simp
  | cons v t ih =>
    have hv : v ≤ K := h v (by simp)
    rw [sum_counts_cons, ih (fun u hu => h u (by simp [hu]))]
    by_cases hv0 : v = 0
    · subst hv0
      have : (List.range' 1 K).count 0 = 0 :=
        List.count_eq_zero_of_not_mem (by
          intro hmem
          have := (List.mem_range'_1.1 hmem).1
          omega)
      simp [this, List.countP_cons]
    · have : (List.range' 1 K).count v = 1 :=
        List.count_eq_one_of_mem (List.nodup_range' 1 K)
          (List.mem_range'_1.2 ⟨by omega, by omega⟩)
      simp [this, List.countP_cons, hv0]

/-! ### The adjacency-dedup accumulator -/

theorem revRange_headD : ∀ (j : Nat), ((0 :: List.range' 1 j).reverse).headD 0 = j
  | 0 => rfl
  | j + 1 => by
    have h : List.range' 1 (j + 1) = List.range' 1 j ++ [1 + j] := by
      rw [List.range'_concat]
      simp
    rw [h]
    simp
    omega

theorem dd_reaches_range' : ∀ (t : List Nat) (K j : Nat),
    t.Pairwise (· ≤ ·) → (∀ v ∈ t, v ≤ K) → (∀ v ∈ t, j ≤ v) →
    (∀ k, j < k → k ≤ K → k ∈ t) → j ≤ K →
    dd t ((0 :: List.range' 1 j).reverse) = (0 :: List.range' 1 K).reverse
  | [], K, j, _, _, _, hmem, hjK => by
    have hKj : K ≤ j := by
      by_contra hc
      push_neg at hc
      have := hmem (j + 1) (by omega) (by omega)
      simp at this
    have : j = K := by omega
    rw [this]
    rfl
  | v :: t, K, j, hp, hle, hge, hmem, hjK => by
    have hjv : j ≤ v := hge v (by simp)
    have hvK : v ≤ K := hle v (by simp)
    have hpt : t.Pairwise (· ≤ ·) := (List.pairwise_cons.1 hp).2
    have hvt : ∀ u ∈ t, v ≤ u := (List.pairwise_cons.1 hp).1
    show dd t (if ((0 :: List.range' 1 j).reverse).headD 0 = v
        then (0 :: List.range' 1 j).reverse
        else v :: (0 :: List.range' 1 j).reverse) = _
    by_cases hjv' : v = j
    · rw [if_pos (by rw [revRange_headD]; omega)]
      exact dd_reaches_range' t K j hpt
        (fun u hu => hle u (by simp [hu]))
        (fun u hu => by have := hvt u hu; omega)
        (fun k hk1 hk2 => by
          rcases List.mem_cons.1 (hmem k hk1 hk2) with h | h
          · omega
          · exact h)
        hjK
    · have hlt : j < v := by omega
      have hveq : v = j + 1 := by
        have hj1 : j + 1 ∈ v :: t := hmem (j + 1) (by omega) (by omega)
        rcases List.mem_cons.1 hj1 with h | h
        · omega
        · have := hvt _ h; omega
      rw [if_neg (by rw [revRange_headD]; omega)]
      have hacc : v :: (0 :: List.range' 1 j).reverse
          = (0 :: List.range' 1 (j + 1)).reverse := by
        rw [show List.range' 1 (j + 1) = List.range' 1 j ++ [1 + j] from by
          rw [List.range'_concat]; simp]
        simp
        omega
      rw [hacc]
      exact dd_reaches_range' t K (j + 1) hpt
        (fun u hu => hle u (by simp [hu]))
        (fun u hu => by have := hvt u hu; omega)
        (fun k hk1 hk2 => by
          rcases List.mem_cons.1 (hmem k (by omega) hk2) with h | h
          · omega
          · exact h)
        (by omega)

theorem dd_pairwise_gt : ∀ (t acc : List Nat), t.Pairwise (· ≤ ·) →
    (∀ v ∈ t, acc.headD 0 ≤ v) → acc.Pairwise (· > ·) → (dd t acc).Pairwise (· > ·)
  | [], _, _, _, hacc => hacc
  | v :: t, acc, hp, hge, hacc => by
    have hpt : t.Pairwise (· ≤ ·) := (List.pairwise_cons.1 hp).2
    have hvt : ∀ u ∈ t, v ≤ u := (List.pairwise_cons.1 hp).1
    show (dd t (if acc.headD 0 = v then acc else v :: acc)).Pairwise (· > ·)
    by_cases hh : acc.headD 0 = v
    · rw [if_pos hh]
      exact dd_pairwise_gt t acc hpt (fun u hu => by rw [hh]; exact hvt u hu) hacc
    · rw [if_neg hh]
      refine dd_pairwise_gt t (v :: acc) hpt (fun u hu => hvt u hu) ?_
      refine List.pairwise_cons.2 ⟨?_, hacc⟩
      intro a ha
      match acc, ha, hacc, hh, hge with
      | b :: acc', ha, hacc, hh, hge =>
        have hbv : b ≤ v := hge v (by simp)
        have hbv' : ¬ b = v := by simpa using hh
        rcases List.mem_cons.1 ha with h | h
        · omega
        · have := (List.pairwise_cons.1 hacc).1 a h
          omega

theorem adjacencyDedup_nodup (t : List Nat) (h : t.Pairwise (· ≤ ·)) :
    (adjacencyDedup t).Nodup := by
  have h1 : (dd t [0]).Pairwise (· > ·) :=
    dd_pairwise_gt t [0] h (fun v _ => by simp) (by simp)
  have h2 : ((dd t [0]).reverse).Pairwise (· < ·) := List.pairwise_reverse.2 h1
  have h3 : (adjacencyDedup t).Pairwise (· < ·) := h2.sublist (List.tail_sublist _)
  exact h3.imp Nat.ne_of_lt

/-! ### The Matcher's loop as two independent dedup folds -/

theorem compareAux_eq_dd : ∀ (z : List (Bool × Nat × Nat)) (da vd : List Nat),
    compareAux z da vd =
      (dd (z.filterMap (fun p => if p.1 && !(p.2.1 == 0) then some p.2.1 else none)) da,
       dd (z.filterMap (fun p => if p.1 && !(p.2.1 == 0) then some p.2.2 else none)) vd)
  | [], da, vd => rfl
  | (f, lv, dv) :: z, da, vd => by
    cases f
    · show compareAux z da vd = _
      rw [compareAux_eq_dd z da vd]
      simp [List.filterMap_cons]
    · by_cases hlv : lv = 0
      · subst hlv
        show (if (0 : Nat) ≠ 0 then
            compareAux z (if da.headD 0 = 0 then da else 0 :: da)
              (if vd.headD 0 = dv then vd else dv :: vd)
          else compareAux z da vd) = _
        rw [if_neg (by omega)]
        rw [compareAux_eq_dd z da vd]
        simp [List.filterMap_cons]
      · show (if lv ≠ 0 then
            compareAux z (if da.headD 0 = lv then da else lv :: da)
              (if vd.headD 0 = dv then vd else dv :: vd)
          else compareAux z da vd) = _
        rw [if_pos hlv]
        rw [compareAux_eq_dd z _ _]
        have hguard : (true && !(lv == 0)) = true := by simp [hlv]
        simp only [List.filterMap_cons, hguard]
        rfl

/-- The Matcher: `compare_lbl_detns` returns its detection-event argument
unchanged together with the adjacency-dedup of the label-event values and
of the detection-event values taken at the positions where the detection
flag is true and the label event is non-zero. -/
theorem compare_lbl_detns_eq (anomLbl : List Nat) (anomDetn : List Bool)
    (anomDetns : List Nat) :
    compare_lbl_detns anomLbl anomDetn anomDetns =
      (anomDetns,
        adjacencyDedup (matcherLblStream anomDetn anomLbl anomDetns),
        adjacencyDedup (matcherDetStream anomDetn anomLbl anomDetns)) := by
  unfold compare_lbl_detns adjacencyDedup matcherLblStream matcherDetStream
  rw [compareAux_eq_dd]

theorem matcherLblStream_cons (f : Bool) (lv dv : Nat) (flags : List Bool)
    (lbl dets : List Nat) :
    matcherLblStream (f :: flags) (lv :: lbl) (dv :: dets)
      = if f && !(lv == 0) then lv :: matcherLblStream flags lbl dets
        else matcherLblStream flags lbl dets := by
  unfold matcherLblStream
  show List.filterMap _ ((f, lv, dv) :: flags.zip (lbl.zip dets)) = _
  rw [List.filterMap_cons]
  by_cases h : (f && !(lv == 0)) = true <;> simp [h]

theorem matcherDetStream_cons (f : Bool) (lv dv : Nat) (flags : List Bool)
    (lbl dets : List Nat) :
    matcherDetStream (f :: flags) (lv :: lbl) (dv :: dets)
      = if f && !(lv == 0) then dv :: matcherDetStream flags lbl dets
        else matcherDetStream flags lbl dets := by
  unfold matcherDetStream
  show List.filterMap _ ((f, lv, dv) :: flags.zip (lbl.zip dets)) = _
  rw [List.filterMap_cons]
  by_cases h : (f && !(lv == 0)) = true <;> simp [h]

theorem avals_cons (a : Bool) (v : Nat) (l : List Bool) (e : List Nat) :
    avals (a :: l) (v :: e) = if a then avals l e else v :: avals l e := by
  unfold avals
  show List.filterMap _ ((a, v) :: l.zip e) = _
  rw [List.filterMap_cons]
  cases a <;> simp

/-- When the label and detection event series coincide, both matcher
streams are the non-zero event values at the anomalous positions. -/
theorem matcher_streams_diag : ∀ (l : List Bool) (e : List Nat),
    matcherLblStream (l.map (fun b => !b)) e e
        = (avals l e).filter (fun v => !(v == 0)) ∧
    matcherDetStream (l.map (fun b => !b)) e e
        = (avals l e).filter (fun v => !(v == 0))
  | [], e => ⟨rfl, rfl⟩
  | x :: xs, [] => ⟨rfl, rfl⟩
  | x :: xs, v :: es => by
    obtain ⟨ih1, ih2⟩ := matcher_streams_diag xs es
    have hmap : (x :: xs).map (fun b => !b) = (!x) :: xs.map (fun b => !b) := rfl
    constructor
    · rw [hmap, matcherLblStream_cons, avals_cons]
      cases x <;> by_cases hv : v = 0 <;>
        simp [hv, List.filter_cons, ih1]
    · rw [hmap, matcherDetStream_cons, avals_cons]
      cases x <;> by_cases hv : v = 0 <;>
        simp [hv, List.filter_cons, ih2]

/-- A block of consecutive identifiers is wholly consumed by any larger
block of valid detections starting at the same point. -/
theorem fdAux_range'_range' (n m s : Nat) (h : n ≤ m) :
    fdAux (List.range' s n) (List.range' s m) = [] := by
  rw [fdAux_range'_eq_filter n s (List.range' s m) (List.pairwise_lt_range' s m)
      (fun v hv => (List.mem_range'_1.1 hv).1)]
  apply List.filter_eq_nil_iff.2
  intro i hi
  have hmem : i ∈ List.range' s m := by
    have := List.mem_range'_1.1 hi
    exact List.mem_range'_1.2 ⟨this.1, by omega⟩
  simp [hmem]

/-! ### Claims C5 and C6: the pipeline on special detection inputs -/

/-- On equal label and detection flag series the pipeline's confusion
counts, when the `value_counts()[0]` lookup succeeds, are
`TP = #nonzero-label-points`, `FN = 0`, `FP = 0`, `TN = #zero-label-points`. -/
theorem script_counts_equal_flags_eq (l : List Bool) (hne : l ≠ [])
    (h0 : 0 < (determine_events l).count 0) :
    script_counts l (l.map (fun b => !b)) =
      .ok ((((determine_events l).countP (fun v => !(v == 0)) : Nat) : Int), 0, 0,
        (((determine_events l).count 0 : Nat) : Int)) := by
  match l, hne, h0 with
  | x :: xs, _, h0 =>
    have hdet : determine_detections ((x :: xs).map (fun b => !b))
        = determine_events (x :: xs) := determine_detections_map_not (x :: xs)
    have havals : avals (x :: xs) (determine_events (x :: xs))
        = avals [x] [0] ++ streamOf x xs 0 := by
      have h := eventsAux_avals xs x 0 [0] [x] (by simp) (by simp)
      simpa using h
    have hstream : (avals (x :: xs) (determine_events (x :: xs))).filter (fun v => !(v == 0))
        = (streamOf x xs 0).filter (fun v => !(v == 0)) := by
      rw [havals, List.filter_append]
      cases x
      · rw [show avals [false] [0] = [0] from rfl]
        simp
      · rw [show avals [true] [0] = ([] : List Nat) from rfl]
        simp
    have hdiag := matcher_streams_diag (x :: xs) (determine_events (x :: xs))
    have hboundE : ∀ v ∈ determine_events (x :: xs), v ≤ finalCount x xs 0 :=
      eventsAux_le xs x 0 [0] (by simp)
    have hpair : ((streamOf x xs 0).filter (fun v => !(v == 0))).Pairwise (· ≤ ·) :=
      (streamOf_pairwise xs x 0).sublist (List.filter_sublist _)
    have hle : ∀ v ∈ (streamOf x xs 0).filter (fun v => !(v == 0)), v ≤ finalCount x xs 0 :=
      fun v hv => streamOf_le xs x 0 v (List.mem_of_mem_filter hv)
    have hge0 : ∀ v ∈ (streamOf x xs 0).filter (fun v => !(v == 0)), 0 ≤ v :=
      fun v _ => Nat.zero_le v
    have hmem : ∀ k, 0 < k → k ≤ finalCount x xs 0 →
        k ∈ (streamOf x xs 0).filter (fun v => !(v == 0)) := by
      intro k hk1 hk2
      refine List.mem_filter.2 ⟨streamOf_mem xs x 0 k hk1 hk2, by simp; omega⟩
    have hdd : dd ((streamOf x xs 0).filter (fun v => !(v == 0))) [0]
        = (0 :: List.range' 1 (finalCount x xs 0)).reverse :=
      dd_reaches_range' _ (finalCount x xs 0) 0 hpair hle hge0 hmem (Nat.zero_le _)
    have hdedup : adjacencyDedup ((streamOf x xs 0).filter (fun v => !(v == 0)))
        = List.range' 1 (finalCount x xs 0) := by
      unfold adjacencyDedup
      rw [hdd]
      simp
    have hinv : false_detections (determine_events (x :: xs))
        (List.range' 1 (finalCount x xs 0)) = [] := by
      unfold false_detections
      have hmax : maxList (determine_events (x :: xs)) ≤ finalCount x xs 0 :=
        maxList_le _ _ hboundE
      exact fdAux_range'_range' _ _ 1 (by omega)
    have hlenE : (determine_events (x :: xs)).length = xs.length + 1 := by
      show (eventsAux x xs 0 [0]).length = xs.length + 1
      rw [eventsAux_length xs x 0 [0] (by simp)]
      simp
      omega
    have hsum : ((List.range' 1 (finalCount x xs 0)).map
          (fun v => (determine_events (x :: xs)).count v)).sum
        = (determine_events (x :: xs)).countP (fun v => !(v == 0)) :=
      sum_counts_range' _ _ hboundE
    have hcnt := count_zero_add_countP (determine_events (x :: xs))
    show script_counts (x :: xs) ((x :: xs).map (fun b => !b)) = _
    unfold script_counts windowingAligned
    simp only [hdet, compare_lbl_detns_eq, hdiag.1, hdiag.2, hstream, hdedup]
    show confusionCounts (determine_events (x :: xs)) ((x :: xs).map (fun b => !b))
        (determine_events (x :: xs)) (List.range' 1 (finalCount x xs 0))
        (false_detections (determine_events (x :: xs))
          (List.range' 1 (finalCount x xs 0))) = _
    rw [hinv]
    unfold confusionCounts
    rw [if_neg (by omega)]
    simp only [List.map_nil, List.sum_nil, Except.ok.injEq, Prod.mk.injEq]
    rw [hsum]
    have hlenD : ((x :: xs).map (fun b => !b)).length = xs.length + 1 := by simp
    rw [hlenD]
    refine ⟨rfl, ?_, rfl, ?_⟩ <;> push_cast <;> omega

/-- C6 (claim).  If the detection flag series equals the label (anomaly)
flag series — `anomDetn = not normal_lbl` pointwise — then whenever the
metric stage produces confusion counts at all, `FN = 0` and `FP = 0`. -/
theorem equal_flags_perfect_recall (l : List Bool) (hne : l ≠ [])
    (tp fn fp tn : Int)
    (h : script_counts l (l.map (fun b => !b)) = .ok (tp, fn, fp, tn)) :
    fn = 0 ∧ fp = 0 := by
  by_cases h0 : 0 < (determine_events l).count 0
  · rw [script_counts_equal_flags_eq l hne h0] at h
    simp only [Except.ok.injEq, Prod.mk.injEq] at h
    exact ⟨h.2.1.symm, h.2.2.1.symm⟩
  · have hz : ((windowingAligned l (l.map (fun b => !b))).anomLbl).count 0 = 0 := by
      have hfield : (windowingAligned l (l.map (fun b => !b))).anomLbl
          = determine_events l := rfl
      rw [hfield]
      omega
    have herr : script_counts l (l.map (fun b => !b)) = .error .keyError := by
      unfold script_counts confusionCounts
      rw [if_pos hz]
    rw [herr] at h
    simp at h

/-- C6 (witness): label flags `[F,F,T,F]` with identical detection flags
give counts `(3, 0, 0, 1)`, i.e. `FN = 0` and `FP = 0`. -/
theorem equal_flags_perfect_recall_witness :
    script_counts [true, true, false, true] [false, false, true, false]
        = .ok (3, 0, 0, 1) ∧
    ((0 : Int) = 0 ∧ (0 : Int) = 0) :=
  ⟨rfl, equal_flags_perfect_recall [true, true, false, true] (by simp) 3 0 0 1 rfl⟩

/-- The loop of `determine_detections` appends only zeros on an all-False
suffix with a False predecessor. -/
theorem detAux_replicate_false : ∀ (n c : Nat) (es : List Nat),
    detAux false (List.replicate n false) c es = es ++ List.replicate n 0
  | 0, _, es => by simp [detAux]
  | n + 1, c, es => by
    show detAux false (List.replicate n false) c (es ++ [0])
      = es ++ List.replicate (n + 1) 0
    rw [detAux_replicate_false n c (es ++ [0])]
    simp [List.replicate_succ]

/-- With no detection flag set, both matcher streams are empty. -/
theorem matcherStream_replicate_false : ∀ (n : Nat) (lbl dets : List Nat),
    matcherLblStream (List.replicate n false) lbl dets = [] ∧
    matcherDetStream (List.replicate n false) lbl dets = []
  | 0, _, _ => ⟨rfl, rfl⟩
  | n + 1, [], dets => ⟨rfl, rfl⟩
  | n + 1, a :: lbl, [] => ⟨rfl, rfl⟩
  | n + 1, a :: lbl, b :: dets => by
    obtain ⟨ih1, ih2⟩ := matcherStream_replicate_false n lbl dets
    have hrep : List.replicate (n + 1) false = false :: List.replicate n false := rfl
    constructor
    · rw [hrep, matcherLblStream_cons]
      simp [ih1]
    · rw [hrep, matcherDetStream_cons]
      simp [ih2]

/-- C5 (as amended).  With an all-False detection series the classifier
returns the empty false-alarm list (no failure: `max` of the all-zero
event series is 0 and `range(1, 0)` is empty), and the counts are
`TP = 0`, `FP = 0`, with `FN` equal to the number of points carrying a
non-zero label event identifier — the widened label events, not the raw
count of labelled-anomalous flags. -/
theorem no_detections_zero_tp_fp (l : List Bool) (hne : l ≠ [])
    (h0 : 0 < (determine_events l).count 0) :
    (windowingAligned l (List.replicate l.length false)).invalid_detections = [] ∧
    script_counts l (List.replicate l.length false) =
      .ok (0, (((determine_events l).countP (fun v => !(v == 0)) : Nat) : Int), 0,
        (((determine_events l).count 0 : Nat) : Int)) := by
  match l, hne, h0 with
  | x :: xs, _, h0 =>
    have hdet : determine_detections (List.replicate (x :: xs).length false)
        = List.replicate (xs.length + 1) 0 := by
      show detAux false (List.replicate xs.length false) 0 [0] = _
      rw [detAux_replicate_false xs.length 0 [0]]
      rw [show List.replicate (xs.length + 1) 0 = 0 :: List.replicate xs.length 0 from rfl]
      rfl
    have hstreams := matcherStream_replicate_false (x :: xs).length
      (determine_events (x :: xs)) (List.replicate (xs.length + 1) 0)
    have hdedup : adjacencyDedup ([] : List Nat) = [] := rfl
    have hinv : false_detections (List.replicate (xs.length + 1) 0) [] = [] := by
      unfold false_detections
      exact fdAux_nil _
    have hlenE : (determine_events (x :: xs)).length = xs.length + 1 := by
      show (eventsAux x xs 0 [0]).length = xs.length + 1
      rw [eventsAux_length xs x 0 [0] (by simp)]
      simp
      omega
    have hcnt := count_zero_add_countP (determine_events (x :: xs))
    constructor
    · show (windowingAligned (x :: xs) (List.replicate (x :: xs).length false)).invalid_detections = []
      unfold windowingAligned
      simp only [hdet, compare_lbl_detns_eq, hstreams.1, hstreams.2, hdedup]
      exact hinv
    · unfold script_counts windowingAligned
      simp only [hdet, compare_lbl_detns_eq, hstreams.1, hstreams.2, hdedup]
      show confusionCounts (List.replicate (xs.length + 1) 0)
          (List.replicate (x :: xs).length false) (determine_events (x :: xs)) []
          (false_detections (List.replicate (xs.length + 1) 0) []) = _
      rw [hinv]
      unfold confusionCounts
      rw [if_neg (by omega)]
      simp only [List.map_nil, List.sum_nil, Except.ok.injEq, Prod.mk.injEq]
      have hlenD : (List.replicate (x :: xs).length false).length = xs.length + 1 := by simp
      rw [hlenD]
      refine ⟨rfl, ?_, rfl, ?_⟩ <;> push_cast <;> omega

/-- C5 (counterexample).  Label flags `[F,F,T,F]`
(`normal_lbl = [true,true,false,true]`, exactly one labelled-anomalous
point) with no detections: the code reports `FN = 3` — the three points of
the widened label event — not the claimed count 1 of labelled-anomalous
points. -/
theorem claim_c5_counterexample :
    script_counts [true, true, false, true] [false, false, false, false]
        = .ok (0, 3, 0, 1) ∧
    [true, true, false, true].count false = 1 ∧
    (3 : Int) ≠ (([true, true, false, true].count false : Nat) : Int) :=
  ⟨rfl, rfl, by decide⟩

/-- C5 (witness): the amended statement at label flags `[F,F,T,F]`. -/
theorem no_detections_zero_tp_fp_witness :
    (windowingAligned [true, true, false, true]
        (List.replicate [true, true, false, true].length false)).invalid_detections = [] ∧
    script_counts [true, true, false, true]
        (List.replicate [true, true, false, true].length false) =
      .ok (0, (((determine_events [true, true, false, true]).countP
          (fun v => !(v == 0)) : Nat) : Int), 0,
        (((determine_events [true, true, false, true]).count 0 : Nat) : Int)) :=
  no_detections_zero_tp_fp [true, true, false, true] (by simp) (by decide)

/-- C3 (counterexample).  Label events `[0,0,1,1,1]` (segmenting
`normal_lbl = [true,true,true,false,true]`) and detection events
`[1,1,1,0,0]` (segmenting detection flags `[F,T,F,F,F]`): position 2 has
a non-zero detection event and a non-zero label event, so the claim
requires an appended detected anomaly, yet the code returns empty lists —
it iterates over the positions where the detection *flag* is true (only
position 1, where the label event is 0), not where the detection event
series is non-zero. -/
theorem claim_c3_counterexample :
    compare_lbl_detns [0, 0, 1, 1, 1] [false, true, false, false, false] [1, 1, 1, 0, 0]
        = ([1, 1, 1, 0, 0], [], []) ∧
    [1, 1, 1, 0, 0].getD 2 9 ≠ 0 ∧
    [0, 0, 1, 1, 1].getD 2 9 ≠ 0 ∧
    determine_events [true, true, true, false, true] = [0, 0, 1, 1, 1] ∧
    determine_detections [false, true, false, false, false] = [1, 1, 1, 0, 0] :=
  ⟨rfl, by decide, by decide, rfl, rfl⟩

/-- C3 (as amended).  The Matcher iterates over exactly the positions
where the detection *flag* is true; at each such position with a non-zero
label event it appends the label event value to `detected_anomalies` and
the detection event value to `valid_detections`, each unless it equals
that list's last-appended value (`adjacencyDedup` over the two value
streams); when the two streams are non-decreasing (the shape segmenter
outputs give them), the resulting lists contain no duplicates. -/
theorem matcher_appends_at_flagged_positions (anomLbl : List Nat) (anomDetn : List Bool)
    (anomDetns : List Nat)
    (hL : (matcherLblStream anomDetn anomLbl anomDetns).Pairwise (· ≤ ·))
    (hV : (matcherDetStream anomDetn anomLbl anomDetns).Pairwise (· ≤ ·)) :
    compare_lbl_detns anomLbl anomDetn anomDetns =
      (anomDetns,
        adjacencyDedup (matcherLblStream anomDetn anomLbl anomDetns),
        adjacencyDedup (matcherDetStream anomDetn anomLbl anomDetns)) ∧
    (adjacencyDedup (matcherLblStream anomDetn anomLbl anomDetns)).Nodup ∧
    (adjacencyDedup (matcherDetStream anomDetn anomLbl anomDetns)).Nodup :=
  ⟨compare_lbl_detns_eq anomLbl anomDetn anomDetns,
    adjacencyDedup_nodup _ hL, adjacencyDedup_nodup _ hV⟩

/-- C3 (witness): the amended statement at label events `[0,1,1]`,
detection flags `[F,T,T]`, detection events `[0,1,1]`. -/
theorem matcher_appends_at_flagged_positions_witness :
    (compare_lbl_detns [0, 1, 1] [false, true, true] [0, 1, 1] =
      ([0, 1, 1],
        adjacencyDedup (matcherLblStream [false, true, true] [0, 1, 1] [0, 1, 1]),
        adjacencyDedup (matcherDetStream [false, true, true] [0, 1, 1] [0, 1, 1])) ∧
    (adjacencyDedup (matcherLblStream [false, true, true] [0, 1, 1] [0, 1, 1])).Nodup ∧
    (adjacencyDedup (matcherDetStream [false, true, true] [0, 1, 1] [0, 1, 1])).Nodup) :=
  matcher_appends_at_flagged_positions [0, 1, 1] [false, true, true] [0, 1, 1]
    (by decide) (by decide)
